import Mathlib

/-!
Verification of the MaaLogs metrics subsystem (`src-tauri/src/metrics.rs`,
`src-tauri/src/config.rs`).

The Rust code accumulates Prometheus metrics in a lazily-initialized global
`Metrics` struct holding an `IntCounterVec` keyed by `(command, status)`, a
`HistogramVec` keyed by `command`, and an `IntGauge` set to `1` at
construction, and serves a text exposition over HTTP.  We embed the registry
state shallowly: the metric-vector families become association lists keyed by
their label values (matching the lazy child creation of a `MetricVec`), the
histogram cell mirrors the `HistogramCore` of the `prometheus` crate (one
non-cumulative count per upper bound, a running sum and a total count, with
`observe` incrementing the first bucket whose upper bound is at least the
value), and durations are rationals.
-/

namespace MaaLogs

/-- The default bucket upper bounds of the `prometheus` crate
(`DEFAULT_BUCKETS`): `HistogramOpts::new` in `Metrics::new` leaves the
boundaries at this library default ladder. -/
def defaultBuckets : List ℚ :=
  [5/1000, 1/100, 25/1000, 5/100, 1/10, 25/100, 5/10, 1, 25/10, 5, 10]

/-- One histogram child (`HistogramCore` of the `prometheus` crate):
`bucketCounts` holds one non-cumulative count per entry of `defaultBuckets`,
plus a running `sum` and total `count` of observations. -/
structure HistCell where
  bucketCounts : List ℕ
  sum : ℚ
  count : ℕ
  deriving DecidableEq, Repr

/-- A fresh histogram child: all bucket counts zero, sum zero, count zero. -/
def HistCell.empty : HistCell :=
  ⟨List.replicate defaultBuckets.length 0, 0, 0⟩

/-- `HistogramCore::observe` bucket update: increment the count of the first
bucket whose upper bound is `≥ v`; values above every bound touch no bucket
(they are counted only by the total `count`). -/
def bumpBuckets : List ℚ → List ℕ → ℚ → List ℕ
  | [], cs, _ => cs
  | _ :: _, [], _ => []
  | b :: bs, c :: cs, v =>
    if v ≤ b then (c + 1) :: cs else c :: bumpBuckets bs cs v

/-- `HistogramCore::observe v`: bump the matching bucket, add `v` to the sum,
increment the total count. -/
def HistCell.observe (cell : HistCell) (v : ℚ) : HistCell :=
  ⟨bumpBuckets defaultBuckets cell.bucketCounts v, cell.sum + v, cell.count + 1⟩

/-- The counter family `tauri_command_total` as an association list from the
label-value pair `(command, status)` to the child counter's value; children
are created lazily on first observation, as in `MetricVec`. -/
def CounterFamily : Type := List ((String × String) × ℕ)

/-- The histogram family `tauri_command_duration_seconds` as an association
list from the label value `command` to the child histogram cell. -/
def HistFamily : Type := List (String × HistCell)

/-- The value of the counter child for label values `q`, `0` when the child
has not been created yet. -/
def counterValue : List ((String × String) × ℕ) → (String × String) → ℕ
  | [], _ => 0
  | (k, v) :: rest, q => if k = q then v else counterValue rest q

/-- `IntCounterVec::with_label_values(..).inc()`: increment the child for the
given label values, creating it (at value `1`) on first use. -/
def incCounter : List ((String × String) × ℕ) → (String × String) →
    List ((String × String) × ℕ)
  | [], q => [(q, 1)]
  | (k, v) :: rest, q =>
    if k = q then (k, v + 1) :: rest else (k, v) :: incCounter rest q

/-- The histogram child for label value `q`, a fresh cell when the child has
not been created yet. -/
def histValue : List (String × HistCell) → String → HistCell
  | [], _ => HistCell.empty
  | (k, cell) :: rest, q => if k = q then cell else histValue rest q

/-- `HistogramVec::with_label_values(..).observe(v)`: observe `v` on the child
for the given label value, creating a fresh child first on first use. -/
def observeHist : List (String × HistCell) → String → ℚ →
    List (String × HistCell)
  | [], q, v => [(q, HistCell.empty.observe v)]
  | (k, cell) :: rest, q, v =>
    if k = q then (k, cell.observe v) :: rest
    else (k, cell) :: observeHist rest q v

/-- The registry state of `metrics.rs`: the three registered collectors of the
`Metrics` struct. -/
structure Metrics where
  command_total : List ((String × String) × ℕ)
  command_duration : List (String × HistCell)
  app_up : ℤ

/-- `Metrics::new()`: both vector families start with no children, and
`app_up.set(1)` leaves the gauge at `1`. -/
def Metrics.new : Metrics :=
  { command_total := [], command_duration := [], app_up := 1 }

/-- `observe_command(command, status, duration_seconds)` from `metrics.rs`:
increment the counter for `(command, status)` and observe the duration on the
histogram for `command`. -/
def observe_command (m : Metrics) (command status : String)
    (duration_seconds : ℚ) : Metrics :=
  { m with
    command_total := incCounter m.command_total (command, status),
    command_duration := observeHist m.command_duration command duration_seconds }

/-- A sequence of `observe_command` calls, each a
`(command, status, duration)` triple, applied in order. -/
def runCalls (m : Metrics) (calls : List (String × String × ℚ)) : Metrics :=
  calls.foldl (fun acc t => observe_command acc t.1 t.2.1 t.2.2) m

/-- `MetricVec::get_metric_with_label_values` validation (the `prometheus`
crate errors with `InconsistentCardinality` when the number of supplied label
values differs from the number of variable labels; `with_label_values` would
panic on that error). -/
def get_metric_with_label_values (labelNames vals : List String) :
    Except String (List String) :=
  if vals.length = labelNames.length then Except.ok vals
  else Except.error "InconsistentCardinality"

/-- `observe_command` with the fallible label lookups made explicit: each
`with_label_values` call is routed through the cardinality check that is the
only failure point of the underlying `prometheus` primitives. -/
def observe_commandE (m : Metrics) (command status : String)
    (duration_seconds : ℚ) : Except String Metrics := do
  let _ ← get_metric_with_label_values ["command", "status"] [command, status]
  let _ ← get_metric_with_label_values ["command"] [command]
  Except.ok (observe_command m command status duration_seconds)

/-- One text-exposition sample line of the `tauri_command_total` family, as
`TextEncoder` renders it: `name\x7blabels\x7d value`. -/
def renderCounterSample (p : (String × String) × ℕ) : String :=
  "tauri_command_total\x7bcommand=\"" ++ p.1.1 ++ "\",status=\"" ++ p.1.2 ++
    "\"\x7d " ++ toString p.2

/-- The `tauri_command_total` portion of the text exposition produced by
`TextEncoder::encode` on `prometheus::gather()`: the `# HELP` and `# TYPE`
comment lines followed by one sample line per child. -/
def expositionCounterLines (m : Metrics) : List String :=
  "# HELP tauri_command_total Tauri command total" ::
    "# TYPE tauri_command_total counter" ::
      m.command_total.map renderCounterSample

/-! ### Configuration (`config.rs`)

The environment is modelled as the value the process environment holds for
the variable in question: `none` for an absent (or non-unicode) variable,
mirroring `env::var`'s `Err`. -/

/-- Rust's `char::to_ascii_lowercase` on one character: shift `A`–`Z` down
into `a`–`z`, leave everything else unchanged. -/
def asciiLowerChar (c : Char) : Char :=
  if 'A' ≤ c ∧ c ≤ 'Z' then Char.ofNat (c.toNat + 32) else c

/-- Rust's `str::to_ascii_lowercase`: lowercase every ASCII uppercase
character of the string. -/
def to_ascii_lowercase (s : String) : String :=
  ⟨s.data.map asciiLowerChar⟩

/-- `metrics_enabled()` from `config.rs`: lowercase the value (ASCII, as
`to_ascii_lowercase`) and compare against the three truthy literals; an
absent variable yields `true` via `unwrap_or(true)`. -/
def metrics_enabled (env : Option String) : Bool :=
  match env with
  | some value =>
    let value := to_ascii_lowercase value
    value == "1" || value == "true" || value == "yes"
  | none => true

/-- One step of Rust's `u16::from_str` digit loop: multiply the accumulator
by ten and add the digit, failing (`checked_mul` / `checked_add`) as soon as
the accumulator leaves the `u16` range, or on a non-digit character. -/
def parseDigits : List Char → ℕ → Option ℕ
  | [], acc => some acc
  | c :: cs, acc =>
    if c.isDigit then
      let acc := acc * 10 + (c.toNat - 48)
      if acc ≤ 65535 then parseDigits cs acc else none
    else none

/-- Rust's `u16::from_str` (`value.parse::<u16>()`): an empty string fails,
a leading `+` is allowed before a nonempty digit string, a leading `-` fails
for an unsigned type, and the digit loop fails on non-digits and on overflow
past `u16::MAX = 65535`. -/
def u16_from_chars : List Char → Option ℕ
  | [] => none
  | c :: rest =>
    if c = '+' then (if rest.isEmpty then none else parseDigits rest 0)
    else if c = '-' then none
    else parseDigits (c :: rest) 0

def u16_from_str (s : String) : Option ℕ :=
  u16_from_chars s.toList

/-- `metrics_port()` from `config.rs`: parse the variable as a `u16`,
falling back to `9100` when the variable is absent or fails to parse. -/
def metrics_port (env : Option String) : ℕ :=
  ((env.bind u16_from_str).getD 9100)

/-- The value denoted by a digit string, most significant digit first. -/
def natOfDigits (ds : List Char) : ℕ :=
  ds.foldl (fun acc c => acc * 10 + (c.toNat - 48)) 0

/-- Spec-side reading of claim C9, for comparison with `u16_from_str`: the
string "parses as an integer in 0..=65535" when it is a nonempty digit
string, optionally preceded by `+`, whose decimal value is `n ≤ 65535`. -/
def denotesU16 (s : String) (n : ℕ) : Prop :=
  ∃ ds : List Char,
    (s.toList = ds ∨ s.toList = '+' :: ds) ∧ ds ≠ [] ∧
      (∀ c ∈ ds, c.isDigit) ∧ natOfDigits ds = n ∧ n ≤ 65535

/-! ### Exporter (`start_metrics_server` in `metrics.rs`)

The server thread's request loop is embedded as a function of the inbound
request and of the outcome of `encoder.encode` (the only fallible step, taken
as a parameter of type `Except Unit String`: `Except.ok body` stands for a
successful encode filling the buffer with `body`).  The registry is threaded
through explicitly so that its (non-)mutation is visible. -/

/-- An inbound HTTP request as `tiny_http` presents it: a method and a URL.
The loop body of `start_metrics_server` consults only `request.url()`. -/
structure HttpRequest where
  method : String
  url : String

/-- The response the loop sends: status code, body, and the optional
`Content-Type` header. -/
structure HttpResponse where
  status : ℕ
  body : String
  contentType : Option String
  deriving DecidableEq, Repr

/-- The body of the request loop in `start_metrics_server`: a non-`/metrics`
URL gets 404 `not found`; on `/metrics`, an encode failure gets 500
`encode error`, and success gets the encoded buffer with the Prometheus
text content type (`Response::from_data` defaults to status 200).  The
registry is returned unchanged: `prometheus::gather()` only reads it. -/
def handle_request (m : Metrics) (req : HttpRequest)
    (encodeResult : Except Unit String) : HttpResponse × Metrics :=
  if req.url ≠ "/metrics" then (⟨404, "not found", none⟩, m)
  else
    match encodeResult with
    | Except.error _ => (⟨500, "encode error", none⟩, m)
    | Except.ok buffer =>
      (⟨200, buffer, some "text/plain; version=0.0.4; charset=utf-8"⟩, m)

/-- The spawned server thread of `start_metrics_server`: when
`Server::http(address)` fails the thread body hits `Err(_) => return` and
ends with no responses sent; otherwise it serves every inbound request.  The
result is `Except.ok` exactly when the thread ends without propagating an
error — the `Except.error` branch is never built, mirroring the `return`. -/
def server_thread (_port : ℕ) (bindResult : Except Unit Unit) (m : Metrics)
    (reqs : List (HttpRequest × Except Unit String)) :
    Except Unit (List HttpResponse) :=
  match bindResult with
  | Except.error _ => Except.ok []
  | Except.ok _ => Except.ok (reqs.map fun rq => (handle_request m rq.1 rq.2).1)

/-- `start_metrics_server(port)`: spawns the thread and returns `()` to the
caller at once; the thread's computation is the value above. -/
def start_metrics_server (port : ℕ) (bindResult : Except Unit Unit)
    (m : Metrics) (reqs : List (HttpRequest × Except Unit String)) :
    Unit × Except Unit (List HttpResponse) :=
  ((), server_thread port bindResult m reqs)

/-! ### Derived quantities used by the statements -/

/-- The number of calls in a sequence that hit the counter cell `(c, s)`. -/
def countCalls (calls : List (String × String × ℚ)) (c s : String) : ℕ :=
  (calls.filter fun t => t.1 = c ∧ t.2.1 = s).length

/-- The durations a sequence of calls records for the operation `op`, in
order. -/
def durationsOf (calls : List (String × String × ℚ)) (op : String) : List ℚ :=
  (calls.filter fun t => t.1 = op).map fun t => t.2.2

/-- The cumulative count the exposition reports at bucket index `i`: the sum
of the first `i + 1` per-bucket counts (`HistogramCore::proto` accumulates
the per-bucket counts into running prefix sums). -/
def takeSum (cs : List ℕ) (i : ℕ) : ℕ :=
  (cs.take (i + 1)).sum

/-- `natOfDigits` with an explicit accumulator, matching the digit loop of
`u16::from_str`. -/
def natOfDigitsFrom (ds : List Char) (acc : ℕ) : ℕ :=
  ds.foldl (fun a c => a * 10 + (c.toNat - 48)) acc

/-! ### Basic lemmas about the families -/

theorem counterValue_incCounter (l : List ((String × String) × ℕ))
    (k q : String × String) :
    counterValue (incCounter l k) q =
      counterValue l q + (if q = k then 1 else 0) := by
  induction l with
  | nil =>
    simp only [incCounter, counterValue]
    by_cases h : q = k
    · rw [if_pos h.symm, if_pos h]
    · rw [if_neg (Ne.symm h), if_neg h]
  | cons p rest ih =>
    obtain ⟨k', v⟩ := p
    simp only [incCounter]
    by_cases h : k' = k
    · subst h
      simp only [if_pos rfl, counterValue]
      by_cases h' : k' = q
      · rw [if_pos h', if_pos h', if_pos h'.symm]
      · rw [if_neg h', if_neg h', if_neg (Ne.symm h')]
        omega
    · rw [if_neg h]
      simp only [counterValue]
      by_cases h' : k' = q
      · subst h'
        rw [if_pos rfl, if_pos rfl, if_neg h]
        omega
      · rw [if_neg h', if_neg h', ih]

theorem histValue_observeHist (l : List (String × HistCell))
    (k q : String) (v : ℚ) :
    histValue (observeHist l k v) q =
      if q = k then (histValue l q).observe v else histValue l q := by
  induction l with
  | nil =>
    simp only [observeHist, histValue]
    by_cases h : q = k
    · rw [if_pos h.symm, if_pos h]
    · rw [if_neg (Ne.symm h), if_neg h]
  | cons p rest ih =>
    obtain ⟨k', cell⟩ := p
    simp only [observeHist]
    by_cases h : k' = k
    · subst h
      simp only [if_pos rfl, histValue]
      by_cases h' : k' = q
      · rw [if_pos h', if_pos h', if_pos h'.symm]
      · rw [if_neg h', if_neg h', if_neg (Ne.symm h')]
    · rw [if_neg h]
      simp only [histValue]
      by_cases h' : k' = q
      · subst h'
        rw [if_pos rfl, if_pos rfl, if_neg h]
      · rw [if_neg h', if_neg h', ih]

theorem runCalls_cons (m : Metrics) (t : String × String × ℚ)
    (ts : List (String × String × ℚ)) :
    runCalls m (t :: ts) = runCalls (observe_command m t.1 t.2.1 t.2.2) ts :=
  rfl

theorem runCalls_app_up (m : Metrics) (calls : List (String × String × ℚ)) :
    (runCalls m calls).app_up = m.app_up := by
  induction calls generalizing m with
  | nil => rfl
  | cons t ts ih => rw [runCalls_cons, ih]; rfl

/-- How one call moves a counter cell: the cell named by the call gains one,
every other cell is untouched. -/
theorem counterValue_observe_command (m : Metrics) (c s : String) (d : ℚ)
    (q : String × String) :
    counterValue (observe_command m c s d).command_total q =
      counterValue m.command_total q + (if q = (c, s) then 1 else 0) :=
  counterValue_incCounter _ _ _

theorem histValue_observe_command (m : Metrics) (c s : String) (d : ℚ)
    (q : String) :
    histValue (observe_command m c s d).command_duration q =
      if q = c then (histValue m.command_duration q).observe d
      else histValue m.command_duration q :=
  histValue_observeHist _ _ _ _

theorem countCalls_cons (t : String × String × ℚ)
    (ts : List (String × String × ℚ)) (c s : String) :
    countCalls (t :: ts) c s =
      countCalls ts c s + (if (c, s) = (t.1, t.2.1) then 1 else 0) := by
  simp only [countCalls, List.filter_cons]
  by_cases h : (c, s) = (t.1, t.2.1)
  · have h1 : t.1 = c := (congrArg Prod.fst h).symm
    have h2 : t.2.1 = s := (congrArg (fun p => p.2) h).symm
    rw [if_pos (by simp [h1, h2]), if_pos h, List.length_cons]
  · rw [if_neg h, if_neg (by
      simp only [decide_eq_true_eq]
      rintro ⟨h1, h2⟩
      exact h (by simp [h1, h2]))]
    simp

theorem counterValue_runCalls (m : Metrics)
    (calls : List (String × String × ℚ)) (c s : String) :
    counterValue (runCalls m calls).command_total (c, s) =
      counterValue m.command_total (c, s) + countCalls calls c s := by
  induction calls generalizing m with
  | nil => simp [runCalls, countCalls]
  | cons t ts ih =>
    rw [runCalls_cons, ih, counterValue_observe_command, countCalls_cons]
    omega

theorem durationsOf_cons (t : String × String × ℚ)
    (ts : List (String × String × ℚ)) (op : String) :
    durationsOf (t :: ts) op =
      if op = t.1 then t.2.2 :: durationsOf ts op else durationsOf ts op := by
  simp only [durationsOf, List.filter_cons]
  by_cases h : op = t.1
  · rw [if_pos (by simp [h.symm]), if_pos h, List.map_cons]
  · rw [if_neg (by simpa using Ne.symm h), if_neg h]

theorem histValue_runCalls (m : Metrics)
    (calls : List (String × String × ℚ)) (op : String) :
    histValue (runCalls m calls).command_duration op =
      (durationsOf calls op).foldl HistCell.observe
        (histValue m.command_duration op) := by
  induction calls generalizing m with
  | nil => simp [runCalls, durationsOf]
  | cons t ts ih =>
    rw [runCalls_cons, ih, histValue_observe_command, durationsOf_cons]
    by_cases h : op = t.1
    · rw [if_pos h, if_pos h, List.foldl_cons]
    · rw [if_neg h, if_neg h]

/-! ### Histogram bucket arithmetic

`TextEncoder` reports, for the bucket with upper bound `defaultBuckets[i]`,
the cumulative count `takeSum cell.bucketCounts i` (`HistogramCore::proto`
accumulates the per-bucket counts into running prefix sums). -/

theorem length_bumpBuckets (bounds : List ℚ) (cs : List ℕ) (v : ℚ) :
    (bumpBuckets bounds cs v).length = cs.length := by
  induction bounds generalizing cs with
  | nil => rfl
  | cons b bs ih =>
    cases cs with
    | nil => rfl
    | cons c cs' =>
      simp only [bumpBuckets]
      by_cases h : v ≤ b
      · rw [if_pos h]
        simp
      · rw [if_neg h]
        simp [ih]

/-- The default bucket ladder is sorted. -/
theorem defaultBuckets_sorted : List.Pairwise (· ≤ ·) defaultBuckets := by
  norm_num [defaultBuckets, List.pairwise_cons]

/-- Bumping the first matching bucket adds exactly one to every cumulative
count whose boundary is at least the observed value, and nothing elsewhere
(for a sorted bucket ladder). -/
theorem takeSum_bumpBuckets (bounds : List ℚ) (cs : List ℕ) (v : ℚ) (i : ℕ)
    (hsort : List.Pairwise (· ≤ ·) bounds) (hlen : cs.length = bounds.length)
    (hi : i < bounds.length) :
    takeSum (bumpBuckets bounds cs v) i =
      takeSum cs i + (if v ≤ bounds.getD i 0 then 1 else 0) := by
  induction bounds generalizing cs i with
  | nil => exact absurd hi (by simp)
  | cons b bs ih =>
    cases cs with
    | nil => exact absurd hlen (by simp)
    | cons c cs' =>
      obtain ⟨hb, hbs⟩ := List.pairwise_cons.mp hsort
      simp only [bumpBuckets]
      by_cases hv : v ≤ b
      · rw [if_pos hv]
        have hvb : v ≤ (b :: bs).getD i 0 := by
          cases i with
          | zero => exact hv
          | succ j =>
            rw [List.getD_cons_succ]
            have hj : j < bs.length := by
              simpa using hi
            rw [List.getD_eq_getElem _ _ hj]
            exact le_trans hv (hb _ (List.getElem_mem hj))
        rw [if_pos hvb]
        simp only [takeSum, List.take_succ_cons, List.sum_cons]
        omega
      · rw [if_neg hv]
        cases i with
        | zero =>
          rw [List.getD_cons_zero, if_neg hv]
          simp [takeSum]
        | succ j =>
          have hj : j < bs.length := by simpa using hi
          have hlen' : cs'.length = bs.length := by simpa using hlen
          simp only [takeSum, List.take_succ_cons, List.sum_cons,
            List.getD_cons_succ]
          have := ih cs' j hbs hlen' hj
          simp only [takeSum] at this
          omega

/-- Folding a list of observations into a histogram cell: the count grows by
the number of observations, the sum by their sum, and each cumulative bucket
count by the number of observations at or below its boundary. -/
theorem foldl_observe_spec (ds : List ℚ) (cell : HistCell)
    (hlen : cell.bucketCounts.length = defaultBuckets.length) :
    (ds.foldl HistCell.observe cell).count = cell.count + ds.length ∧
    (ds.foldl HistCell.observe cell).sum = cell.sum + ds.sum ∧
    (ds.foldl HistCell.observe cell).bucketCounts.length =
      defaultBuckets.length ∧
    ∀ i, i < defaultBuckets.length →
      takeSum (ds.foldl HistCell.observe cell).bucketCounts i =
        takeSum cell.bucketCounts i +
          ds.countP (fun v => decide (v ≤ defaultBuckets.getD i 0)) := by
  induction ds generalizing cell with
  | nil => exact ⟨rfl, by simp, hlen, fun i _ => by simp⟩
  | cons d ds ih =>
    have hlen' : (cell.observe d).bucketCounts.length = defaultBuckets.length := by
      simpa [HistCell.observe, length_bumpBuckets] using hlen
    obtain ⟨hcount, hsum, hblen, hbuckets⟩ := ih (cell.observe d) hlen'
    refine ⟨?_, ?_, by simpa using hblen, ?_⟩
    · rw [List.foldl_cons, hcount]
      simp [HistCell.observe]
      omega
    · rw [List.foldl_cons, hsum]
      simp only [HistCell.observe, List.sum_cons]
      ring
    · intro i hi
      rw [List.foldl_cons, hbuckets i hi]
      have hstep := takeSum_bumpBuckets defaultBuckets cell.bucketCounts d i
        defaultBuckets_sorted hlen hi
      simp only [HistCell.observe] at hstep ⊢
      rw [hstep, List.countP_cons]
      by_cases hd : d ≤ defaultBuckets.getD i 0
      · rw [if_pos hd, if_pos (by simpa using hd)]
        omega
      · rw [if_neg hd, if_neg (by simpa using hd)]
        omega

/-! ### The `u16` parser of `metrics_port` -/

theorem le_natOfDigitsFrom (ds : List Char) (acc : ℕ) :
    acc ≤ natOfDigitsFrom ds acc := by
  induction ds generalizing acc with
  | nil => exact le_refl _
  | cons c cs ih =>
    calc acc ≤ acc * 10 + (c.toNat - 48) := by omega
    _ ≤ natOfDigitsFrom cs (acc * 10 + (c.toNat - 48)) := ih _
    _ = natOfDigitsFrom (c :: cs) acc := rfl

theorem parseDigits_complete (ds : List Char) (acc : ℕ)
    (hdig : ∀ c ∈ ds, c.isDigit) (hle : natOfDigitsFrom ds acc ≤ 65535) :
    parseDigits ds acc = some (natOfDigitsFrom ds acc) := by
  induction ds generalizing acc with
  | nil => rfl
  | cons c cs ih =>
    have hc : c.isDigit := hdig c (List.mem_cons_self c cs)
    have hstep : natOfDigitsFrom (c :: cs) acc =
        natOfDigitsFrom cs (acc * 10 + (c.toNat - 48)) := rfl
    have hacc : acc * 10 + (c.toNat - 48) ≤ 65535 :=
      le_trans (le_natOfDigitsFrom cs _) (hstep ▸ hle)
    simp only [parseDigits, if_pos hc, if_pos hacc]
    rw [hstep]
    exact ih _ (fun x hx => hdig x (List.mem_cons_of_mem c hx)) (hstep ▸ hle)

theorem parseDigits_sound (ds : List Char) (acc v : ℕ) (hacc : acc ≤ 65535)
    (h : parseDigits ds acc = some v) :
    (∀ c ∈ ds, c.isDigit) ∧ v = natOfDigitsFrom ds acc ∧ v ≤ 65535 := by
  induction ds generalizing acc with
  | nil =>
    refine ⟨by simp, ?_, ?_⟩
    · simpa [parseDigits, natOfDigitsFrom] using h.symm
    · have : acc = v := by simpa [parseDigits] using h
      omega
  | cons c cs ih =>
    by_cases hc : c.isDigit
    · rw [parseDigits, if_pos hc] at h
      by_cases hb : acc * 10 + (c.toNat - 48) ≤ 65535
      · rw [if_pos hb] at h
        obtain ⟨h1, h2, h3⟩ := ih _ hb h
        exact ⟨fun x hx => by
          rcases List.mem_cons.mp hx with hx | hx
          · exact hx ▸ hc
          · exact h1 x hx, h2, h3⟩
      · rw [if_neg hb] at h
        exact absurd h (by simp)
    · rw [parseDigits, if_neg hc] at h
      exact absurd h (by simp)

/-- Soundness of `u16_from_str` against the spec-side reading: a successful
parse means the string denotes that value. -/
theorem u16_from_str_sound (s : String) (v : ℕ)
    (h : u16_from_str s = some v) : denotesU16 s v := by
  rw [u16_from_str] at h
  cases hs : s.toList with
  | nil => rw [hs] at h; exact absurd h (by simp [u16_from_chars])
  | cons c rest =>
    rw [hs] at h
    simp only [u16_from_chars] at h
    by_cases hplus : c = '+'
    · rw [if_pos hplus] at h
      by_cases hemp : rest.isEmpty
      · rw [if_pos hemp] at h; exact absurd h (by simp)
      · rw [if_neg hemp] at h
        obtain ⟨h1, h2, h3⟩ := parseDigits_sound rest 0 v (by omega) h
        exact ⟨rest, Or.inr (by rw [hs, hplus]), by simpa using hemp,
          h1, by exact h2.symm, h3⟩
    · rw [if_neg hplus] at h
      by_cases hminus : c = '-'
      · rw [if_pos hminus] at h; exact absurd h (by simp)
      · rw [if_neg hminus] at h
        obtain ⟨h1, h2, h3⟩ := parseDigits_sound (c :: rest) 0 v (by omega) h
        exact ⟨c :: rest, Or.inl hs, by simp,
          h1, by exact h2.symm, h3⟩

/-- Completeness of `u16_from_str`: a string denoting `n ≤ 65535` parses to
exactly `n`. -/
theorem u16_from_str_complete (s : String) (n : ℕ) (h : denotesU16 s n) :
    u16_from_str s = some n := by
  obtain ⟨ds, hcase, hne, hdig, hval, hle⟩ := h
  have hval' : natOfDigitsFrom ds 0 = n := hval
  have hds : parseDigits ds 0 = some n := by
    have := parseDigits_complete ds 0 hdig (by rw [hval']; exact hle)
    rw [hval'] at this
    exact this
  rcases hcase with hcase | hcase
  · rw [u16_from_str, hcase]
    cases ds with
    | nil => exact absurd rfl hne
    | cons c rest =>
      have hc : c.isDigit := hdig c (List.mem_cons_self c rest)
      have hplus : ¬ c = '+' := fun h' => by rw [h'] at hc; simp at hc
      have hminus : ¬ c = '-' := fun h' => by rw [h'] at hc; simp at hc
      simp only [u16_from_chars]
      rw [if_neg hplus, if_neg hminus]
      exact hds
  · rw [u16_from_str, hcase]
    simp only [u16_from_chars]
    rw [if_pos trivial, if_neg (by simpa [List.isEmpty_iff] using hne)]
    exact hds

/-! ### Claim theorems -/

/-- Claim C1: for every sequence of `observe_command` calls, the exported
counter value for a pair `(operation, outcome)` equals exactly the number of
calls made with that pair; and after the single call
`observe_command("greet", "success", 0.002)` the exposition contains the
sample `tauri_command_total` for `greet`/`success` with value `1`, and the
`greet` histogram has total count `1` and sum `0.002`. -/
theorem observe_command_counter_exact :
    (∀ (calls : List (String × String × ℚ)) (c s : String),
      counterValue (runCalls Metrics.new calls).command_total (c, s) =
        countCalls calls c s) ∧
    "tauri_command_total\x7bcommand=\"greet\",status=\"success\"\x7d 1" ∈
      expositionCounterLines
        (runCalls Metrics.new [("greet", "success", 2/1000)]) ∧
    (histValue (runCalls Metrics.new
      [("greet", "success", 2/1000)]).command_duration "greet").count = 1 ∧
    (histValue (runCalls Metrics.new
      [("greet", "success", 2/1000)]).command_duration "greet").sum =
      2/1000 := by
  refine ⟨fun calls c s => ?_, by decide, by decide, ?_⟩
  · rw [counterValue_runCalls]
    simp [Metrics.new, counterValue]
  · norm_num [runCalls, observe_command, Metrics.new, observeHist, histValue,
      HistCell.observe, HistCell.empty]

/-- Claim C2: for every call sequence and operation, the histogram's
cumulative count at each bucket boundary equals the number of durations
recorded for that operation that are at most the boundary, the histogram's
sum equals the arithmetic sum of those durations, and its total count equals
the number of calls for the operation. -/
theorem observe_command_histogram_exact (calls : List (String × String × ℚ))
    (op : String) (i : ℕ) (hi : i < defaultBuckets.length) :
    takeSum (histValue (runCalls Metrics.new
        calls).command_duration op).bucketCounts i =
      ((durationsOf calls op).filter fun v =>
        v ≤ defaultBuckets.getD i 0).length ∧
    (histValue (runCalls Metrics.new calls).command_duration op).sum =
      (durationsOf calls op).sum ∧
    (histValue (runCalls Metrics.new calls).command_duration op).count =
      (durationsOf calls op).length := by
  have hnew : histValue Metrics.new.command_duration op = HistCell.empty := rfl
  rw [histValue_runCalls, hnew]
  obtain ⟨hcount, hsum, -, hbuckets⟩ :=
    foldl_observe_spec (durationsOf calls op) HistCell.empty
      (by simp [HistCell.empty])
  refine ⟨?_, ?_, ?_⟩
  · rw [hbuckets i hi, List.countP_eq_length_filter]
    have hempty : takeSum HistCell.empty.bucketCounts i = 0 := by
      simp [takeSum, HistCell.empty, List.take_replicate]
    rw [hempty]
    omega
  · rw [hsum]
    simp [HistCell.empty]
  · rw [hcount]
    simp [HistCell.empty]

theorem observe_command_histogram_exact_witness :
    0 < defaultBuckets.length ∧
    (takeSum (histValue (runCalls Metrics.new
        [("greet", "success", 2/1000)]).command_duration
          "greet").bucketCounts 0 =
      ((durationsOf [("greet", "success", 2/1000)] "greet").filter fun v =>
        v ≤ defaultBuckets.getD 0 0).length ∧
    (histValue (runCalls Metrics.new
      [("greet", "success", 2/1000)]).command_duration "greet").sum =
      (durationsOf [("greet", "success", 2/1000)] "greet").sum ∧
    (histValue (runCalls Metrics.new
      [("greet", "success", 2/1000)]).command_duration "greet").count =
      (durationsOf [("greet", "success", 2/1000)] "greet").length) :=
  ⟨by decide,
   observe_command_histogram_exact [("greet", "success", 2/1000)] "greet" 0
     (by decide)⟩

/-- Claim C3 counterexample: `"banana"` is not a case-insensitive `"1"`,
`"true"` or `"yes"`, yet `metrics_enabled` yields `false` for it, not the
claimed default `true`. -/
theorem metrics_enabled_default_counterexample :
    to_ascii_lowercase "banana" ≠ "1" ∧
    to_ascii_lowercase "banana" ≠ "true" ∧
    to_ascii_lowercase "banana" ≠ "yes" ∧
    metrics_enabled (some "banana") = false := by
  decide

/-- Claim C3 (amended): the flag is `true` exactly when the variable is
absent or its value is a case-insensitive `"1"`, `"true"` or `"yes"`; every
other present value yields `false` — only absence yields the default
`true`. -/
theorem metrics_enabled_truthy_iff (env : Option String) :
    metrics_enabled env = true ↔
      (env = none ∨ ∃ s, env = some s ∧
        (to_ascii_lowercase s = "1" ∨ to_ascii_lowercase s = "true" ∨
          to_ascii_lowercase s = "yes")) := by
  cases env with
  | none => simp [metrics_enabled]
  | some s => simp [metrics_enabled, or_assoc]

/-- Claim C4 counterexample: it is not the case that every request other
than `GET /metrics` gets a 404 — a `POST` to `/metrics` receives the 200
exposition response, because the loop only inspects `request.url()`. -/
theorem handle_request_get_only_counterexample :
    ¬ (∀ (m : Metrics) (req : HttpRequest) (enc : Except Unit String),
        ¬ (req.method = "GET" ∧ req.url = "/metrics") →
          (handle_request m req enc).1.status = 404) := by
  intro hclaim
  have h := hclaim Metrics.new ⟨"POST", "/metrics"⟩ (Except.ok "") (by simp)
  simp [handle_request] at h

/-- Claim C4 (amended): every inbound request whose path is not `/metrics`
gets status 404 with the non-empty plain-text body `not found` and leaves
the registry unchanged; every request whose path is `/metrics` — the method
is ignored — receives the 200 exposition response. -/
theorem handle_request_url_routing (m : Metrics) (req : HttpRequest)
    (enc : Except Unit String) :
    (req.url ≠ "/metrics" →
      handle_request m req enc = (⟨404, "not found", none⟩, m)) ∧
    (req.url = "/metrics" → ∀ body,
      handle_request m req (Except.ok body) =
        (⟨200, body, some "text/plain; version=0.0.4; charset=utf-8"⟩, m)) := by
  constructor
  · intro h
    unfold handle_request
    rw [if_pos h]
  · intro h body
    unfold handle_request
    rw [if_neg (fun hh => hh h)]

theorem handle_request_url_routing_witness :
    (("/foo" : String) ≠ "/metrics") ∧
    handle_request Metrics.new ⟨"GET", "/foo"⟩ (Except.ok "") =
      (⟨404, "not found", none⟩, Metrics.new) :=
  ⟨by decide,
   (handle_request_url_routing Metrics.new ⟨"GET", "/foo"⟩
     (Except.ok "")).1 (by decide)⟩

/-- Claim C5: when binding `127.0.0.1:port` fails, the server thread ends
without surfacing any error (the `Err(_) => return` arm) and sends no
responses; in fact the thread's computation never produces an error for any
bind outcome, so nothing ever reaches the host. -/
theorem start_metrics_server_bind_swallowed (port : ℕ) (m : Metrics)
    (reqs : List (HttpRequest × Except Unit String)) :
    (∀ e : Unit,
      (start_metrics_server port (Except.error e) m reqs).2 = Except.ok []) ∧
    (∀ b : Except Unit Unit, ∃ rs,
      (start_metrics_server port b m reqs).2 = Except.ok rs) := by
  constructor
  · intro e
    rfl
  · intro b
    cases b with
    | error e => exact ⟨[], rfl⟩
    | ok u => exact ⟨_, rfl⟩

/-- Claim C6: on a `/metrics` scrape, an encoding failure yields status 500
with body `encode error` and leaves the registry unchanged; a successful
encode yields status 200 with the Prometheus text content type, also leaving
the registry unchanged. -/
theorem handle_request_encode_error (m : Metrics) (req : HttpRequest)
    (h : req.url = "/metrics") :
    (∀ e : Unit, handle_request m req (Except.error e) =
      (⟨500, "encode error", none⟩, m)) ∧
    (∀ body, handle_request m req (Except.ok body) =
      (⟨200, body, some "text/plain; version=0.0.4; charset=utf-8"⟩, m)) := by
  have hcond : ¬ (req.url ≠ "/metrics") := fun hh => hh h
  constructor
  · intro e
    unfold handle_request
    rw [if_neg hcond]
  · intro body
    unfold handle_request
    rw [if_neg hcond]

theorem handle_request_encode_error_witness :
    (("/metrics" : String) = "/metrics") ∧
    handle_request Metrics.new ⟨"GET", "/metrics"⟩ (Except.error ()) =
      (⟨500, "encode error", none⟩, Metrics.new) :=
  ⟨rfl, (handle_request_encode_error Metrics.new ⟨"GET", "/metrics"⟩ rfl).1 ()⟩

/-- Claim C7: `observe_command` is unconditionally non-failing — with the
fallible label-cardinality checks of the underlying `prometheus` primitives
made explicit, every call returns `ok` of the plain state update, for every
operation name, outcome string and duration. -/
theorem observe_command_never_errors (m : Metrics) (c s : String) (d : ℚ) :
    observe_commandE m c s d = Except.ok (observe_command m c s d) := rfl

/-- Claim C8: the up gauge is exactly `1` at registry construction, and no
sequence of `observe_command` calls ever changes it. -/
theorem app_up_always_one :
    Metrics.new.app_up = 1 ∧
    ∀ calls : List (String × String × ℚ),
      (runCalls Metrics.new calls).app_up = 1 :=
  ⟨rfl, fun calls => by rw [runCalls_app_up]; rfl⟩

/-- Claim C9: `metrics_port` returns the parsed value whenever the
environment string denotes an integer in `0..=65535`, and returns `9100` in
every other case — variable unset, non-numeric, negative, or out of the
`u16` range. -/
theorem metrics_port_parse (env : Option String) :
    (env = none → metrics_port env = 9100) ∧
    (∀ s n, env = some s → denotesU16 s n → metrics_port env = n) ∧
    (∀ s, env = some s → (∀ n, ¬ denotesU16 s n) →
      metrics_port env = 9100) := by
  refine ⟨?_, ?_, ?_⟩
  · rintro rfl
    rfl
  · rintro s n rfl hd
    simp [metrics_port, u16_from_str_complete s n hd]
  · rintro s rfl hn
    cases hv : u16_from_str s with
    | none => simp [metrics_port, hv]
    | some v => exact absurd (u16_from_str_sound s v hv) (hn v)

theorem metrics_port_parse_witness :
    denotesU16 "9090" 9090 ∧ metrics_port (some "9090") = 9090 := by
  have hd : denotesU16 "9090" 9090 :=
    ⟨['9', '0', '9', '0'], Or.inl rfl, by decide, by decide, by decide,
      by decide⟩
  exact ⟨hd, (metrics_port_parse (some "9090")).2.1 "9090" 9090 rfl hd⟩

/-- Claim C10: `observe_command(command, status, duration)` increments
exactly the counter cell `(command, status)` and observes on exactly the
histogram cell `command`; every other counter cell, every other operation's
histogram cell, and the up gauge are unchanged. -/
theorem observe_command_frame (m : Metrics) (c s : String) (d : ℚ) :
    counterValue (observe_command m c s d).command_total (c, s) =
      counterValue m.command_total (c, s) + 1 ∧
    histValue (observe_command m c s d).command_duration c =
      (histValue m.command_duration c).observe d ∧
    (∀ q, q ≠ (c, s) →
      counterValue (observe_command m c s d).command_total q =
        counterValue m.command_total q) ∧
    (∀ op, op ≠ c →
      histValue (observe_command m c s d).command_duration op =
        histValue m.command_duration op) ∧
    (observe_command m c s d).app_up = m.app_up := by
  refine ⟨?_, ?_, ?_, ?_, rfl⟩
  · rw [counterValue_observe_command, if_pos rfl]
  · rw [histValue_observe_command, if_pos rfl]
  · intro q hq
    rw [counterValue_observe_command, if_neg hq]
    omega
  · intro op hop
    rw [histValue_observe_command, if_neg hop]

theorem observe_command_frame_witness :
    (("open", "error") : String × String) ≠ ("greet", "success") ∧
    (("open" : String) ≠ "greet") ∧
    counterValue (observe_command Metrics.new "greet" "success"
      1).command_total ("open", "error") =
      counterValue Metrics.new.command_total ("open", "error") ∧
    histValue (observe_command Metrics.new "greet" "success"
      1).command_duration "open" =
      histValue Metrics.new.command_duration "open" :=
  ⟨by decide, by decide,
   (observe_command_frame Metrics.new "greet" "success" 1).2.2.1 _ (by decide),
   (observe_command_frame Metrics.new "greet" "success" 1).2.2.2.1 _
     (by decide)⟩

end MaaLogs
